import Mathlib

/-!
# go-revolver: stream discovery and reachability probing

A shallow embedding of `p2p/connect.go` (`deal`, `difference`,
`replenishStreamstore`) and `p2p/ping.go` (`ping`, `pingHandler`), followed by
the properties established about them.

Conventions of the embedding.

* Go `int` values are modelled by `Int`.  No operation of the embedded code can
  leave the 64-bit range: `deal` only divides by a divisor `b ≥ 1` and
  increments a quotient that is strictly below `a` whenever the remainder is
  non-zero, and the selection loop only decrements a quota that is at least 1.
* Go slices are modelled by `List`; the `nil` slice and the empty slice are
  both `[]`.
* Calls that leave the process (opening a stream, reading, writing, the random
  source, the clock) are modelled by an explicit record of their results.
-/

namespace p2p

/-! ## connect.go: deal and difference -/

/-- Peer identifiers (`peer.ID` is a Go string type). -/
abbrev peer.ID := String

/-- Network addresses of a peer (multiaddresses, kept as text). -/
abbrev Addr := String

/-- Divide `a` by `b` and split the remainder (`deal` in connect.go).
`a / b` and `a % b` are Go's truncated division and remainder.  The first loop
writes `q` at every index below `b`; the second one increments the entries at
the indices below `r` (it does not run when `r ≤ 0`). -/
def deal (a b : Int) : List Int :=
  if b < 1 then
    []
  else
    let q := Int.tdiv a b
    let r := Int.tmod a b
    let result := List.replicate b.toNat (0 : Int)
    let result := (List.range b.toNat).foldl (fun res i => res.set i q) result
    let result := (List.range r.toNat).foldl (fun res i => res.modify (· + 1) i) result
    result

/-- The partition helper as the specification words it: no element when
`parts < 1`; otherwise `parts` elements, the one at index `i` being
`total div parts`, plus one for the first `total mod parts` indices. -/
def dealSpec (total parts : Int) : List Int :=
  if parts < 1 then
    []
  else
    (List.range parts.toNat).map
      (fun (i : Nat) => if (i : Int) < total % parts then total / parts + 1 else total / parts)

/-- The inner loop of `difference`: scan `y` from the left for an element equal
to `xi`, stopping at the first hit. -/
def existsIn (xi : peer.ID) : List peer.ID → Bool
  | [] => false
  | yj :: ys => if xi = yj then true else existsIn xi ys

/-- The outer loop of `difference`, with the slice `result` built so far. -/
def differenceLoop (y : List peer.ID) : List peer.ID → List peer.ID → List peer.ID
  | [], result => result
  | xi :: xs, result =>
    if !existsIn xi y then differenceLoop y xs (result ++ [xi])
    else differenceLoop y xs result

/-- Calculate the relative complement of `y` in `x` (`difference` in
connect.go). -/
def difference (x y : List peer.ID) : List peer.ID :=
  differenceLoop y x []

/-! ## Collaborators of the client: routing table, peer store, stream store -/

/-- Go `error` values, kept as their message; `none` is the `nil` error. -/
abbrev error := String

/-- Values stored under a key of the peer store (Go `interface{}`): the ones
the client stores are booleans (`AUTHORIZED`) and times (`PINGED_AT`). -/
inductive Value where
  | bool (b : Bool)
  | time (t : Nat)
  | other (s : String)
deriving DecidableEq, Repr

/-- A bucket of the routing table, as the list of peers `Peers()` returns. -/
structure Bucket where
  list : List peer.ID
deriving DecidableEq, Repr

/-- Peers of a bucket (`Bucket.Peers`). -/
def Bucket.Peers (b : Bucket) : List peer.ID := b.list

/-- The routing table: an ordered collection of buckets. -/
structure RoutingTable where
  Buckets : List Bucket
deriving DecidableEq, Repr

/-- Modelled from the spec: peer removal from the routing table
(`RoutingTable.Remove`, of the kbucket library); the peer is taken out of the
bucket that holds it. -/
def RoutingTable.Remove (rt : RoutingTable) (p : peer.ID) : RoutingTable :=
  { Buckets := rt.Buckets.map (fun b => { list := b.list.filter (fun q => q ≠ p) }) }

/-- Result of `Peerstore.PeerInfo`. -/
structure PeerInfo where
  ID : peer.ID
  Addrs : List Addr
deriving DecidableEq, Repr

/-- The peer store: known addresses, key/value attributes and the recorded
round-trip latencies of each peer. -/
structure Peerstore where
  addrs : peer.ID → List Addr
  attrs : peer.ID → String → Option Value
  latency : peer.ID → List Nat

/-- Modelled from the spec: address lookup (`Peerstore.PeerInfo`, of the
peerstore library): the identifier asked for, with its known addresses. -/
def Peerstore.PeerInfo (ps : Peerstore) (p : peer.ID) : PeerInfo :=
  { ID := p, Addrs := ps.addrs p }

/-- Modelled from the spec: address clearing (`Peerstore.ClearAddrs`). -/
def Peerstore.ClearAddrs (ps : Peerstore) (p : peer.ID) : Peerstore :=
  { ps with addrs := fun q => if q = p then [] else ps.addrs q }

/-- Modelled from the spec: key/value get per peer (`Peerstore.Get`); an error
when nothing is stored under the key. -/
def Peerstore.Get (ps : Peerstore) (p : peer.ID) (key : String) : Except error Value :=
  match ps.attrs p key with
  | some v => .ok v
  | none => .error "item not found"

/-- Modelled from the spec: key/value put per peer (`Peerstore.Put`). -/
def Peerstore.Put (ps : Peerstore) (p : peer.ID) (key : String) (v : Value) : Peerstore :=
  { ps with attrs := fun q k => if q = p ∧ k = key then some v else ps.attrs q k }

/-- Modelled from the spec: the measured round-trip latency history of a peer
(`Peerstore.RecordLatency`); the new observation is added to it. -/
def Peerstore.RecordLatency (ps : Peerstore) (p : peer.ID) (d : Nat) : Peerstore :=
  { ps with latency := fun q => if q = p then ps.latency q ++ [d] else ps.latency q }

/-- The part of the stream store the client reads: the outbound peer set and
the configured outbound capacity. -/
structure Streamstore where
  outbound : List peer.ID
  capacity : Int
deriving DecidableEq, Repr

/-- Outbound peer set (`Streamstore.OutboundPeers`). -/
def Streamstore.OutboundPeers (ss : Streamstore) : List peer.ID := ss.outbound

/-- Configured outbound capacity (`Streamstore.OutboundCapacity`). -/
def Streamstore.OutboundCapacity (ss : Streamstore) : Int := ss.capacity

/-- Configuration of the client: the timeout of reads and writes. -/
structure Config where
  Timeout : Nat
deriving DecidableEq, Repr

/-- The client state read or written by stream discovery and by the ping
service. -/
structure client where
  id : peer.ID
  table : RoutingTable
  peerstore : Peerstore
  streamstore : Streamstore
  config : Config

/-- Modelled from the spec: sort by distance (`kbucket.SortClosestPeers`): the
peers by ascending XOR distance between their key and the target key.
`convert` is `kbucket.ConvertPeerID`, the hash that maps a peer identifier to
its key. -/
def kbucket.SortClosestPeers (convert : peer.ID → Nat) (peers : List peer.ID) (target : Nat) :
    List peer.ID :=
  peers.insertionSort (fun a b => Nat.xor (convert a) target ≤ Nat.xor (convert b) target)

/-! ## connect.go: replenishStreamstore -/

/-- How a loop of the pass ended: it ran to its end, it stopped on a run-time
panic (an index out of range), or the fuel of the model ran out. -/
inductive Status where
  | done
  | panicked
  | outOfFuel
deriving DecidableEq, Repr

/-- Variables of the selection loop of one bucket: the candidates left, the
remaining target `t`, the peers handed to `client.pair` so far, and the number
of random draws made so far in the pass. -/
structure Selection where
  delta : List peer.ID
  t : Int
  paired : List peer.ID
  draws : Nat
deriving DecidableEq, Repr

/-- One iteration of the selection loop, past its two guards, for the sampled
index `j`: look `delta[j]` up in the peer store, hand it to `client.pair` and
decrement `t` when it is not the local identifier and has an address, then
remove it from `delta`.  `none` is the index-out-of-range panic of `delta[j]`.
The call `client.pair info.ID` is recorded in `paired`; `pair` itself is defined
outside connect.go, and the loop reads nothing it could have changed but the
peer store, which is taken as it is at the start of the pass. -/
def selectStep (c : client) (st : Selection) (j : Int) : Option Selection :=
  if j < 0 then
    none
  else
    match st.delta[j.toNat]? with
    | none => none
    | some p =>
      let info := c.peerstore.PeerInfo p
      let st1 : Selection :=
        if info.ID ≠ c.id ∧ info.Addrs.length ≠ 0 then
          { st with paired := st.paired ++ [info.ID], t := st.t - 1 }
        else
          st
      some { st1 with
        delta := st.delta.take j.toNat ++ st.delta.drop (j.toNat + 1),
        draws := st.draws + 1 }

/-- The selection loop of one bucket, `for len(delta) > 0 { if s >= t { break } ... }`.
`rand k` is the index computed from the `k`-th random draw of the pass,
`int(math.Floor(math.Exp(math.Log(n+1)*rand.Float64()) - 1))`. -/
def selectLoop (c : client) (rand : Nat → Int) (s : Int) : Nat → Selection → Selection × Status
  | 0, st =>
    if st.delta.length > 0 then
      if s ≥ st.t then (st, .done) else (st, .outOfFuel)
    else
      (st, .done)
  | fuel + 1, st =>
    if st.delta.length > 0 then
      if s ≥ st.t then
        (st, .done)
      else
        match selectStep c st (rand st.draws) with
        | none => (st, .panicked)
        | some st1 => selectLoop c rand s fuel st1
    else
      (st, .done)

/-- What the pass did for one bucket: the peers handed to `client.pair`, in
call order, and the number of random draws made for the bucket. -/
structure BucketRun where
  paired : List peer.ID
  draws : Nat
deriving DecidableEq, Repr

/-- Outcome of one pass: one `BucketRun` per bucket entered, in bucket order,
the number of random draws made, and how the pass ended. -/
structure Pass where
  runs : List BucketRun
  draws : Nat
  status : Status
deriving DecidableEq, Repr

/-- Candidates of a bucket: `delta`, the peers of the bucket that are not in
`streams`, sorted by distance to the local identifier. -/
def candidates (convert : peer.ID → Nat) (c : client) (streams : List peer.ID) (b : Bucket) :
    List peer.ID :=
  kbucket.SortClosestPeers convert (difference b.Peers streams) (convert c.id)

/-- Number of current outbound peers that belong to a bucket, as the pass
computes it: `s := len(streams) - len(difference(streams, peers))`. -/
def alreadyFromBucket (streams : List peer.ID) (b : Bucket) : Int :=
  (streams.length : Int) - ((difference streams b.Peers).length : Int)

/-- The selection loop of bucket `b` with target `t`, started after `draws`
random draws; there is fuel for every candidate. -/
def selectFrom (convert : peer.ID → Nat) (c : client) (rand : Nat → Int)
    (streams : List peer.ID) (b : Bucket) (t : Int) (draws : Nat) : Selection × Status :=
  selectLoop c rand (alreadyFromBucket streams b) (candidates convert c streams b).length
    { delta := candidates convert c streams b, t := t, paired := [], draws := draws }

/-- The loop `for i := range buckets` of `replenishStreamstore`, from bucket
`i` on, `draws` random draws having been made.  `targets[i]` out of range is a
run-time panic. -/
def bucketLoop (convert : peer.ID → Nat) (c : client) (rand : Nat → Int)
    (streams : List peer.ID) (targets : List Int) : Nat → List Bucket → Nat → Pass
  | _, [], draws => { runs := [], draws := draws, status := .done }
  | i, b :: rest, draws =>
    match targets[i]? with
    | none => { runs := [], draws := draws, status := .panicked }
    | some t =>
      let r := selectFrom convert c rand streams b t draws
      let run : BucketRun := { paired := r.1.paired, draws := r.1.draws - draws }
      match r.2 with
      | .done =>
        let next := bucketLoop convert c rand streams targets (i + 1) rest r.1.draws
        { next with runs := run :: next.runs }
      | st => { runs := [run], draws := r.1.draws, status := st }

/-- Replenish the stream store (`replenishStreamstore` in connect.go). -/
def client.replenishStreamstore (convert : peer.ID → Nat) (c : client) (rand : Nat → Int) : Pass :=
  let buckets := c.table.Buckets
  let streams := c.streamstore.OutboundPeers
  let targets := deal c.streamstore.OutboundCapacity buckets.length
  bucketLoop convert c rand streams targets 0 buckets 0

/-- Number of connection attempts (calls to `client.pair`) of a pass. -/
def Pass.attempts (p : Pass) : Nat :=
  (p.runs.map (fun r => r.paired.length)).sum

/-- Sum over the buckets of the room each one has below its target:
`max 0 (targets[i] - alreadyFromBucket i)`. -/
def quotaSum (streams : List peer.ID) (buckets : List Bucket) (targets : List Int) : Int :=
  ((buckets.zip targets).map (fun bt => max 0 (bt.2 - alreadyFromBucket streams bt.1))).sum

/-! ## ping.go: ping and pingHandler -/

/-- Operations performed on a stream. -/
inductive StreamOp where
  | write (buf : List UInt8) (timeout : Nat)
  | read (n : Nat) (timeout : Nat)
  | close
deriving DecidableEq, Repr

/-- Results of the calls one `ping` makes outside the client: the error of
`host.NewStream`, the bytes and the error of `rand.Reader.Read`, the error of
`util.WriteWithTimeout`, the bytes and the error of `util.ReadWithTimeout`, the
duration `time.Since(before)` and the time `time.Now()`. -/
structure PingCalls where
  newStream : Option error
  random : List UInt8
  randomErr : Option error
  write : Option error
  read : List UInt8
  readErr : Option error
  since : Nat
  now : Nat

/-- What `ping` leaves behind: the client state, the returned error and the
operations performed on the stream (the deferred `Close` last). -/
structure PingResult where
  state : client
  err : Option error
  ops : List StreamOp

/-- The buffer `wbuf` after `rand.Reader.Read(wbuf)`: 32 bytes, zero where the
reader wrote nothing. -/
def fillBuffer (random : List UInt8) : List UInt8 :=
  random.take 32 ++ List.replicate (32 - (random.take 32).length) 0

/-- Ping a peer (`client.ping` in ping.go). -/
def client.ping (c : client) (peerId : peer.ID) (w : PingCalls) : PingResult :=
  let pid := peerId
  match w.newStream with
  | some err =>
    let c1 : client := { c with peerstore := c.peerstore.ClearAddrs pid }
    let c2 : client := { c1 with table := c1.table.Remove pid }
    { state := c2, err := some err, ops := [] }
  | none =>
    let wbuf := fillBuffer w.random
    match w.randomErr with
    | some err => { state := c, err := some err, ops := [.close] }
    | none =>
      match w.write with
      | some err =>
        { state := c, err := some err, ops := [.write wbuf c.config.Timeout, .close] }
      | none =>
        let rbuf := w.read
        match w.readErr with
        | some err =>
          { state := c, err := some err,
            ops := [.write wbuf c.config.Timeout, .read 32 c.config.Timeout, .close] }
        | none =>
          if wbuf ≠ rbuf then
            { state := c, err := some "Corrupt data!",
              ops := [.write wbuf c.config.Timeout, .read 32 c.config.Timeout, .close] }
          else
            let c1 : client := { c with peerstore := c.peerstore.RecordLatency pid w.since }
            let c2 : client :=
              { c1 with peerstore := c1.peerstore.Put pid "PINGED_AT" (.time w.now) }
            { state := c2, err := none,
              ops := [.write wbuf c.config.Timeout, .read 32 c.config.Timeout, .close] }

/-- Results of the calls one `pingHandler` makes on its stream: the bytes and
the error of `util.ReadWithTimeout`, the error of `util.WriteWithTimeout`. -/
structure HandlerCalls where
  read : List UInt8
  readErr : Option error
  write : Option error

/-- What `pingHandler` did: the operations on the stream (the deferred `Close`
last) and whether it stopped on a run-time panic. -/
structure HandlerResult where
  ops : List StreamOp
  panicked : Bool
deriving DecidableEq, Repr

/-- Handle an incoming ping (`client.pingHandler` in ping.go) on a stream whose
remote peer is `remotePeer`.  The type assertion `authorized.(bool)` panics on
a stored value that is not a boolean. -/
def client.pingHandler (c : client) (remotePeer : peer.ID) (w : HandlerCalls) : HandlerResult :=
  let pid := remotePeer
  match c.peerstore.Get pid "AUTHORIZED" with
  | .error _ => { ops := [.close], panicked := false }
  | .ok (.bool authorized) =>
    if !authorized then
      { ops := [.close], panicked := false }
    else
      let rbuf := w.read
      match w.readErr with
      | some _ => { ops := [.read 32 c.config.Timeout, .close], panicked := false }
      | none =>
        { ops := [.read 32 c.config.Timeout, .write rbuf c.config.Timeout, .close],
          panicked := false }
  | .ok _ => { ops := [.close], panicked := true }

/-! ## Example states -/

/-- A peer store in which every peer but `D` has one known address, and `A` is
authorized. -/
def demoPeerstore : Peerstore :=
  { addrs := fun p => if p = "D" then [] else ["/ip4/10.0.0.1/tcp/4001"],
    attrs := fun p k => if p = "A" ∧ k = "AUTHORIZED" then some (.bool true) else none,
    latency := fun _ => [] }

/-- A client with capacity 2 and one bucket `[A, B]`, whose only outbound peer
`C` is in no bucket of the routing table. -/
def demoClient : client :=
  { id := "self",
    table := { Buckets := [{ list := ["A", "B"] }] },
    peerstore := demoPeerstore,
    streamstore := { outbound := ["C"], capacity := 2 },
    config := { Timeout := 5 } }

/-- A client with capacity 4 and two buckets, with one outbound peer in each
bucket. -/
def demoClient2 : client :=
  { id := "self",
    table := { Buckets := [{ list := ["A", "B", "C"] }, { list := ["D", "E", "self", "F"] }] },
    peerstore := demoPeerstore,
    streamstore := { outbound := ["A", "E"], capacity := 4 },
    config := { Timeout := 5 } }

/-- A client with capacity 4 and two buckets, whose three outbound peers are
all in the first bucket (target 2). -/
def demoClient3 : client :=
  { id := "self",
    table := { Buckets := [{ list := ["A", "B", "C"] }, { list := ["D", "E", "self", "F"] }] },
    peerstore := demoPeerstore,
    streamstore := { outbound := ["A", "B", "C"], capacity := 4 },
    config := { Timeout := 5 } }

/-! ## Properties of deal -/

theorem setLoop_getElem? (q : Int) (n : Nat) (l : List Int) (i : Nat) :
    ((List.range n).foldl (fun res k => res.set k q) l)[i]? =
      if i < n then l[i]?.map (fun _ => q) else l[i]? := by
  induction n with
  | zero => simp
  | succ n ih =>
    rw [List.range_succ, List.foldl_append]
    simp only [List.foldl_cons, List.foldl_nil, List.getElem?_set]
    have hlen : ((List.range n).foldl (fun res k => res.set k q) l).length = l.length := by
      clear ih
      induction n with
      | zero => simp
      | succ m ihm => rw [List.range_succ, List.foldl_append]; simp [ihm]
    rw [hlen, ih]
    by_cases h1 : n = i
    · subst h1
      by_cases h2 : n < l.length
      · simp [h2, List.getElem?_eq_getElem h2]
      · simp [h2, List.getElem?_eq_none (Nat.le_of_not_lt h2)]
    · by_cases h3 : i < n
      · simp [h1, h3, Nat.lt_succ_of_lt h3]
      · have : ¬ i < n + 1 := by omega
        simp [h1, h3, this]

theorem incrLoop_getElem? (n : Nat) (l : List Int) (i : Nat) :
    ((List.range n).foldl (fun res k => res.modify (· + 1) k) l)[i]? =
      if i < n then l[i]?.map (· + 1) else l[i]? := by
  induction n with
  | zero => simp
  | succ n ih =>
    rw [List.range_succ, List.foldl_append]
    simp only [List.foldl_cons, List.foldl_nil, List.getElem?_modify, ih]
    by_cases h1 : n = i
    · subst h1
      cases hl : l[n]? <;> simp
    · by_cases h3 : i < n
      · cases hl : l[i]? <;> simp [h1, h3, Nat.lt_succ_of_lt h3]
      · have : ¬ i < n + 1 := by omega
        cases hl : l[i]? <;> simp [h1, h3, this]

/-- Closed form of `deal` for a divisor of at least one. -/
theorem deal_eq_map (a b : Int) (hb : 1 ≤ b) :
    deal a b = (List.range b.toNat).map
      (fun i => if i < (Int.tmod a b).toNat then Int.tdiv a b + 1 else Int.tdiv a b) := by
  have hb' : ¬ b < 1 := by omega
  unfold deal
  simp only [hb', if_false]
  apply List.ext_getElem?
  intro i
  rw [incrLoop_getElem?, setLoop_getElem?, List.getElem?_map, List.getElem?_replicate]
  by_cases hi : i < b.toNat
  · simp only [hi, if_true, List.getElem?_range hi, Option.map_some']
    by_cases hr : i < (Int.tmod a b).toNat <;> simp [hr]
  · have hnone : (List.range b.toNat)[i]? = none := by
      apply List.getElem?_eq_none; simpa using hi
    simp [hi, hnone]

theorem sum_split (q : Int) (r n : Nat) :
    ((List.range n).map (fun i => if i < r then q + 1 else q)).sum =
      (n : Int) * q + ((min r n : Nat) : Int) := by
  induction n with
  | zero => simp
  | succ n ih =>
    rw [List.sum_range_succ, ih]
    have hmul : (((n + 1 : Nat)) : Int) * q = (n : Int) * q + q := by push_cast; ring
    rw [hmul]
    by_cases h : n < r
    · have h1 : min r (n + 1) = min r n + 1 := by omega
      simp only [h, if_true, h1]
      push_cast
      ring
    · have h1 : min r (n + 1) = min r n := by omega
      simp only [h, if_false, h1]
      ring

/-- The entries of `deal a b` sum to `a` when `a ≥ 0` and `b ≥ 1`. -/
theorem deal_sum (a b : Int) (h0 : 0 ≤ a) (h1 : 1 ≤ b) : (deal a b).sum = a := by
  have hp : (0 : Int) ≤ b := by omega
  have hr0 : 0 ≤ a % b := Int.emod_nonneg _ (by omega)
  have hrlt : a % b < b := Int.emod_lt_of_pos _ (by omega)
  rw [deal_eq_map a b h1, Int.tdiv_eq_ediv h0 hp, Int.tmod_eq_emod h0 hp, sum_split]
  have hmin : min (a % b).toNat b.toNat = (a % b).toNat := by omega
  rw [hmin, Int.toNat_of_nonneg hp, Int.toNat_of_nonneg hr0]
  have := Int.emod_add_ediv a b
  linarith

theorem deal_length (a b : Int) : (deal a b).length = b.toNat := by
  by_cases hb : b < 1
  · have : b.toNat = 0 := by omega
    simp [deal, hb, this]
  · rw [deal_eq_map a b (by omega)]
    simp

theorem deal_nonneg (a b : Int) (h0 : 0 ≤ a) : ∀ e ∈ deal a b, 0 ≤ e := by
  intro e he
  by_cases hb : b < 1
  · simp [deal, hb] at he
  · have hp : (0 : Int) ≤ b := by omega
    rw [deal_eq_map a b (by omega), Int.tdiv_eq_ediv h0 hp] at he
    have hq0 : 0 ≤ a / b := Int.ediv_nonneg h0 hp
    simp only [List.mem_map] at he
    obtain ⟨i, _, hi⟩ := he
    by_cases h : i < (a.tmod b).toNat
    · simp only [h, if_true] at hi; omega
    · simp only [h, if_false] at hi; omega

theorem deal_sum_le (a b : Int) (h0 : 0 ≤ a) : (deal a b).sum ≤ a := by
  by_cases hb : b < 1
  · simp [deal, hb, h0]
  · exact le_of_eq (deal_sum a b h0 (by omega))

/-- C1. For `total ≥ 0` and `parts ≥ 1`, `deal total parts` has exactly `parts`
elements, they sum to `total`, and each one differs from the integer quotient
`total / parts` by at most one; `deal 10 3 = [4, 3, 3]`. -/
theorem deal_length_sum_near (total parts : Int) (h0 : 0 ≤ total) (h1 : 1 ≤ parts) :
    ((deal total parts).length : Int) = parts ∧
    (deal total parts).sum = total ∧
    (∀ e ∈ deal total parts, (e - total / parts).natAbs ≤ 1) ∧
    deal 10 3 = [4, 3, 3] := by
  have hp : (0 : Int) ≤ parts := by omega
  have hq : Int.tdiv total parts = total / parts := Int.tdiv_eq_ediv h0 hp
  have hr : Int.tmod total parts = total % parts := Int.tmod_eq_emod h0 hp
  have hr0 : 0 ≤ total % parts := Int.emod_nonneg _ (by omega)
  have hrlt : total % parts < parts := Int.emod_lt_of_pos _ (by omega)
  rw [deal_eq_map total parts h1, hq, hr]
  refine ⟨?_, ?_, ?_, by decide⟩
  · simp [Int.toNat_of_nonneg hp]
  · rw [← hq, ← hr, ← deal_eq_map total parts h1]
    exact deal_sum total parts h0 h1
  · intro e he
    rw [List.mem_map] at he
    obtain ⟨i, _, hi⟩ := he
    by_cases h : i < (total % parts).toNat
    · simp only [h, if_true] at hi
      subst hi
      simp
    · simp only [h, if_false] at hi
      subst hi
      simp

/-- Witness of C1 at `total = 10`, `parts = 3`. -/
theorem deal_length_sum_near_witness :
    ((deal 10 3).length : Int) = 3 ∧ (deal 10 3).sum = 10 ∧
    (∀ e ∈ deal 10 3, (e - 10 / 3).natAbs ≤ 1) ∧ deal 10 3 = [4, 3, 3] :=
  deal_length_sum_near 10 3 (by decide) (by decide)

/-- C2. `deal` equals its reference definition: with `parts < 1` the result is
empty, whatever `total` is; with `total ≥ 0` and `parts ≥ 1` the result is
`dealSpec total parts`, whose element at index `i < parts` is
`total / parts + 1` when `i < total % parts` and `total / parts` otherwise, and
every element is non-negative. -/
theorem deal_refines_dealSpec (total parts : Int) :
    (parts < 1 → deal total parts = []) ∧
    (0 ≤ total → 1 ≤ parts →
      deal total parts = dealSpec total parts ∧
      (∀ i : Nat, (i : Int) < parts →
        (deal total parts)[i]? =
          some (if (i : Int) < total % parts then total / parts + 1 else total / parts)) ∧
      (∀ i : Nat, parts ≤ (i : Int) → (deal total parts)[i]? = none) ∧
      (∀ e ∈ deal total parts, 0 ≤ e)) := by
  constructor
  · intro h
    simp [deal, h]
  · intro h0 h1
    have hp : (0 : Int) ≤ parts := by omega
    have hq : Int.tdiv total parts = total / parts := Int.tdiv_eq_ediv h0 hp
    have hr : Int.tmod total parts = total % parts := Int.tmod_eq_emod h0 hp
    have hr0 : 0 ≤ total % parts := Int.emod_nonneg _ (by omega)
    have hq0 : 0 ≤ total / parts := Int.ediv_nonneg h0 hp
    have hspec : deal total parts = dealSpec total parts := by
      rw [deal_eq_map total parts h1, hq, hr]
      have hb : ¬ parts < 1 := by omega
      simp only [dealSpec, hb, if_false]
      apply List.map_congr_left
      intro i _
      have : (i < (total % parts).toNat) ↔ ((i : Int) < total % parts) := by omega
      simp only [this]
    refine ⟨hspec, ?_, ?_, ?_⟩
    · intro i hi
      have hb : ¬ parts < 1 := by omega
      have hi' : i < parts.toNat := by omega
      rw [hspec]
      simp only [dealSpec, hb, if_false, List.getElem?_map, List.getElem?_range hi',
        Option.map_some']
    · intro i hi
      have hb : ¬ parts < 1 := by omega
      rw [hspec]
      simp only [dealSpec, hb, if_false]
      apply List.getElem?_eq_none
      simp
      omega
    · intro e he
      rw [hspec] at he
      have hb : ¬ parts < 1 := by omega
      simp only [dealSpec, hb, if_false, List.mem_map] at he
      obtain ⟨i, _, hi⟩ := he
      by_cases h : (i : Int) < total % parts
      · simp only [h, if_true] at hi; omega
      · simp only [h, if_false] at hi; omega

/-- Witness of C2: an empty result for `parts = 0`, the reference result for
`deal 7 3`. -/
theorem deal_refines_dealSpec_witness :
    deal 5 0 = [] ∧ deal 7 3 = dealSpec 7 3 ∧ deal 7 3 = [3, 2, 2] :=
  ⟨(deal_refines_dealSpec 5 0).1 (by decide),
   ((deal_refines_dealSpec 7 3).2 (by decide) (by decide)).1, by decide⟩

/-! ## Properties of difference -/

theorem existsIn_eq_decide (xi : peer.ID) (y : List peer.ID) :
    existsIn xi y = decide (xi ∈ y) := by
  induction y with
  | nil => simp [existsIn]
  | cons yj ys ih =>
    by_cases h : xi = yj
    · simp [existsIn, h]
    · simp [existsIn, h, ih]

theorem differenceLoop_eq (y x result : List peer.ID) :
    differenceLoop y x result = result ++ x.filter (fun e => decide (e ∉ y)) := by
  induction x generalizing result with
  | nil => simp [differenceLoop]
  | cons xi xs ih =>
    by_cases h : xi ∈ y
    · simp [differenceLoop, existsIn_eq_decide, h, ih]
    · simp [differenceLoop, existsIn_eq_decide, h, ih]

theorem difference_eq (x y : List peer.ID) :
    difference x y = x.filter (fun e => decide (e ∉ y)) := by
  simp [difference, differenceLoop_eq]

theorem mem_difference (x y : List peer.ID) (e : peer.ID) :
    e ∈ difference x y ↔ e ∈ x ∧ e ∉ y := by
  simp [difference_eq, List.mem_filter]

/-- C3. `difference x y` is `x` filtered by absence from `y`: it keeps every
element of `x` absent from `y` with its multiplicity, holds no element of `y`,
is a subsequence of `x` (so the order of `x` is kept), and is no longer than
`x`; `difference [A, B, C] [B] = [A, C]`. -/
theorem difference_is_filter (x y : List peer.ID) :
    difference x y = x.filter (fun e => decide (e ∉ y)) ∧
    (∀ e, e ∉ y → (difference x y).count e = x.count e) ∧
    (∀ e, e ∈ difference x y → e ∈ x ∧ e ∉ y) ∧
    (∀ e, e ∈ y → e ∉ difference x y) ∧
    (difference x y).Sublist x ∧
    (difference x y).length ≤ x.length ∧
    difference ["A", "B", "C"] ["B"] = ["A", "C"] := by
  refine ⟨difference_eq x y, ?_, ?_, ?_, ?_, ?_, by decide⟩
  · intro e he
    rw [difference_eq]
    exact List.count_filter (by simpa using he)
  · intro e he
    exact (mem_difference x y e).1 he
  · intro e he hmem
    exact ((mem_difference x y e).1 hmem).2 he
  · rw [difference_eq]
    exact List.filter_sublist x
  · rw [difference_eq]
    exact List.length_filter_le _ x

/-- Witness of C3 at `x = [A, B, C, A]`, `y = [B]`. -/
theorem difference_is_filter_witness :
    (difference ["A", "B", "C", "A"] ["B"]).count "A" = 2 ∧
    "B" ∉ difference ["A", "B", "C", "A"] ["B"] :=
  ⟨(difference_is_filter ["A", "B", "C", "A"] ["B"]).2.1 "A" (by decide),
   (difference_is_filter ["A", "B", "C", "A"] ["B"]).2.2.2.1 "B" (by decide)⟩

/-! ## Properties of ping and pingHandler -/

/-- C6. When `host.NewStream` fails with `err`, `ping` applies `ClearAddrs` and
`Remove` to the peer, so that afterwards the peer has no known address in the
peer store and is in no bucket of the routing table, and `ping` returns
`err`. -/
theorem ping_open_failure (c : client) (peerId : peer.ID) (w : PingCalls) (err : error)
    (hopen : w.newStream = some err) :
    (c.ping peerId w).state.peerstore = c.peerstore.ClearAddrs peerId ∧
    (c.ping peerId w).state.table = c.table.Remove peerId ∧
    (c.ping peerId w).state.peerstore.addrs peerId = [] ∧
    (∀ b ∈ (c.ping peerId w).state.table.Buckets, peerId ∉ b.Peers) ∧
    (c.ping peerId w).err = some err := by
  simp only [client.ping, hopen]
  refine ⟨trivial, trivial, ?_, ?_, trivial⟩
  · simp [Peerstore.ClearAddrs]
  · intro b hb
    simp only [RoutingTable.Remove, List.mem_map] at hb
    obtain ⟨b0, _, rfl⟩ := hb
    simp [Bucket.Peers, List.mem_filter]

/-- C7. When the stream opens, `ping` leaves the routing table and the known
addresses of every peer as they were; and when it then fails at payload
generation, at send, at receive, or on a payload mismatch, it returns an error
and leaves the whole client state unchanged: nothing removed, no address
cleared, no latency recorded, no `PINGED_AT` stored. -/
theorem ping_failure_after_open (c : client) (peerId : peer.ID) (w : PingCalls)
    (hopen : w.newStream = none) :
    ((c.ping peerId w).state.table = c.table ∧
      (c.ping peerId w).state.peerstore.addrs = c.peerstore.addrs) ∧
    ((w.randomErr ≠ none ∨ w.write ≠ none ∨ w.readErr ≠ none ∨ fillBuffer w.random ≠ w.read) →
      (c.ping peerId w).err ≠ none ∧ (c.ping peerId w).state = c) := by
  simp only [client.ping, hopen]
  cases h1 : w.randomErr with
  | some e1 => simp
  | none =>
    cases h2 : w.write with
    | some e2 => simp
    | none =>
      cases h3 : w.readErr with
      | some e3 => simp
      | none =>
        by_cases h4 : fillBuffer w.random = w.read
        · simp [h4, Peerstore.Put, Peerstore.RecordLatency]
        · simp [h4]

/-- C8. When the lookup of `AUTHORIZED` for the remote peer fails or gives
`false`, `pingHandler` performs no read and no write on the stream and only
closes it; when it gives `true` and the read succeeds, the handler reads once,
writes back exactly the bytes it read, and closes the stream. -/
theorem pingHandler_authorization (c : client) (remotePeer : peer.ID) (w : HandlerCalls) :
    (((∃ e, c.peerstore.Get remotePeer "AUTHORIZED" = .error e) ∨
        c.peerstore.Get remotePeer "AUTHORIZED" = .ok (.bool false)) →
      c.pingHandler remotePeer w = { ops := [.close], panicked := false }) ∧
    (c.peerstore.Get remotePeer "AUTHORIZED" = .ok (.bool true) → w.readErr = none →
      c.pingHandler remotePeer w =
        { ops := [.read 32 c.config.Timeout, .write w.read c.config.Timeout, .close],
          panicked := false }) := by
  constructor
  · rintro (⟨e, he⟩ | hf)
    · simp [client.pingHandler, he]
    · simp [client.pingHandler, hf]
  · intro ht hr
    simp [client.pingHandler, ht, hr]

/-! ## The selection loop of one bucket -/

/-- What one iteration of the selection loop does when `delta[j]` is in range:
the candidate at index `j` leaves `delta`, one more draw is counted, and either
the candidate is valid, is handed to `client.pair` and `t` drops by one, or it
is not valid and neither `paired` nor `t` changes. -/
theorem selectStep_some (c : client) (st st1 : Selection) (j : Int)
    (h : selectStep c st j = some st1) :
    ∃ p, 0 ≤ j ∧ st.delta[j.toNat]? = some p ∧
      st1.delta = st.delta.eraseIdx j.toNat ∧
      st1.draws = st.draws + 1 ∧
      ((p ≠ c.id ∧ c.peerstore.addrs p ≠ [] ∧ st1.paired = st.paired ++ [p] ∧ st1.t = st.t - 1) ∨
        ((p = c.id ∨ c.peerstore.addrs p = []) ∧ st1.paired = st.paired ∧ st1.t = st.t)) := by
  unfold selectStep at h
  by_cases hj : j < 0
  · simp [hj] at h
  · simp only [hj, if_false] at h
    cases hp : st.delta[j.toNat]? with
    | none => simp [hp] at h
    | some p =>
      simp only [hp, Option.some.injEq] at h
      refine ⟨p, by omega, rfl, ?_, ?_, ?_⟩
      · rw [← h, List.eraseIdx_eq_take_drop_succ]
      · rw [← h]
      · by_cases hv : p ≠ c.id ∧ c.peerstore.addrs p ≠ []
        · left
          refine ⟨hv.1, hv.2, ?_, ?_⟩
          · rw [← h]; simp [Peerstore.PeerInfo, hv.1, hv.2]
          · rw [← h]; simp [Peerstore.PeerInfo, hv.1, hv.2]
        · right
          have hv1 : p = c.id ∨ c.peerstore.addrs p = [] := by
            by_cases h1 : p = c.id
            · exact Or.inl h1
            · right
              by_contra h2
              exact hv ⟨h1, h2⟩
          refine ⟨hv1, ?_, ?_⟩
          · rw [← h]
            rcases hv1 with h1 | h1 <;> simp [Peerstore.PeerInfo, h1]
          · rw [← h]
            rcases hv1 with h1 | h1 <;> simp [Peerstore.PeerInfo, h1]

theorem selectStep_length (c : client) (st st1 : Selection) (j : Int)
    (h : selectStep c st j = some st1) : st1.delta.length + 1 = st.delta.length := by
  obtain ⟨p, _, hp, hd, _, _⟩ := selectStep_some c st st1 j h
  obtain ⟨hlt, _⟩ := List.getElem?_eq_some.1 hp
  rw [hd, List.length_eraseIdx]
  simp only [hlt, if_true]
  omega

/-- Invariant of the selection loop: the peers it hands to `client.pair` are
added at the end of `paired`; there are at most `max 0 (t - s)` of them; every
draw removes one candidate; each paired peer was a candidate, is not the local
identifier and has an address; and with fuel for every candidate the loop does
not run out of fuel. -/
theorem selectLoop_inv (c : client) (rand : Nat → Int) (s : Int) :
    ∀ (fuel : Nat) (st : Selection),
      ∃ new : List peer.ID,
        (selectLoop c rand s fuel st).1.paired = st.paired ++ new ∧
        (new.length : Int) ≤ max 0 (st.t - s) ∧
        new.length + st.draws ≤ (selectLoop c rand s fuel st).1.draws ∧
        (selectLoop c rand s fuel st).1.draws + (selectLoop c rand s fuel st).1.delta.length =
          st.draws + st.delta.length ∧
        (∀ p ∈ new, p ∈ st.delta ∧ p ≠ c.id ∧ c.peerstore.addrs p ≠ []) ∧
        (st.delta.length ≤ fuel → (selectLoop c rand s fuel st).2 ≠ .outOfFuel) := by
  intro fuel
  induction fuel with
  | zero =>
    intro st
    refine ⟨[], ?_, ?_, ?_, ?_, ?_, ?_⟩
    · unfold selectLoop; split_ifs <;> simp
    · simp
    · unfold selectLoop; split_ifs <;> simp
    · unfold selectLoop; split_ifs <;> simp
    · simp
    · intro hl
      have : ¬ st.delta.length > 0 := by omega
      unfold selectLoop
      simp [this]
  | succ fuel ih =>
    intro st
    unfold selectLoop
    by_cases h1 : st.delta.length > 0
    · by_cases h2 : s ≥ st.t
      · simp only [h1, h2, if_true]
        exact ⟨[], by simp, by simp, by simp, by simp, by simp, by simp⟩
      · simp only [h1, h2, if_true, if_false]
        cases hs : selectStep c st (rand st.draws) with
        | none =>
          exact ⟨[], by simp, by simp, by simp, by simp, by simp, by simp⟩
        | some st1 =>
          simp only []
          obtain ⟨p, _, hp, hd, hdr, hcase⟩ := selectStep_some c st st1 _ hs
          have hlen := selectStep_length c st st1 _ hs
          have hpmem : p ∈ st.delta := List.getElem?_mem hp
          obtain ⟨new, e1, e2, e3, e4, e5, e6⟩ := ih st1
          have hsub : ∀ q ∈ st1.delta, q ∈ st.delta := by
            intro q hq
            rw [hd] at hq
            exact List.mem_of_mem_eraseIdx hq
          rcases hcase with ⟨hne, had, hpa, ht⟩ | ⟨_, hpa, ht⟩
          · refine ⟨p :: new, ?_, ?_, ?_, ?_, ?_, ?_⟩
            · rw [e1, hpa]; simp
            · rw [ht] at e2
              simp only [List.length_cons]
              push_cast
              omega
            · simp only [List.length_cons]; omega
            · omega
            · intro q hq
              rcases List.mem_cons.1 hq with rfl | hq
              · exact ⟨hpmem, hne, had⟩
              · exact ⟨hsub q (e5 q hq).1, (e5 q hq).2⟩
            · intro hl
              exact e6 (by omega)
          · refine ⟨new, ?_, ?_, ?_, ?_, ?_, ?_⟩
            · rw [e1, hpa]
            · rw [ht] at e2; exact e2
            · omega
            · omega
            · intro q hq
              exact ⟨hsub q (e5 q hq).1, (e5 q hq).2⟩
            · intro hl
              exact e6 (by omega)
    · simp only [h1, if_false]
      exact ⟨[], by simp, by simp, by simp, by simp, by simp, by simp⟩

/-- More fuel than there are candidates does not change the result of the
selection loop. -/
theorem selectLoop_fuel (c : client) (rand : Nat → Int) (s : Int) :
    ∀ (fuel : Nat) (st : Selection), st.delta.length ≤ fuel →
      selectLoop c rand s fuel st = selectLoop c rand s st.delta.length st := by
  intro fuel
  induction fuel with
  | zero =>
    intro st h
    have h0 : st.delta.length = 0 := by omega
    rw [h0]
  | succ fuel ih =>
    intro st h
    cases hlen : st.delta.length with
    | zero =>
      unfold selectLoop
      simp [hlen]
    | succ n =>
      unfold selectLoop
      simp only [hlen]
      by_cases h2 : s ≥ st.t
      · simp [h2]
      · simp only [h2, if_false]
        cases hs : selectStep c st (rand st.draws) with
        | none => rfl
        | some st1 =>
          simp only []
          have hl := selectStep_length c st st1 _ hs
          have hn : st1.delta.length = n := by omega
          rw [ih st1 (by omega), hn]

/-! ## The pass over the buckets -/

theorem sortClosestPeers_perm (convert : peer.ID → Nat) (l : List peer.ID) (target : Nat) :
    (kbucket.SortClosestPeers convert l target).Perm l := by
  unfold kbucket.SortClosestPeers
  exact List.perm_insertionSort _ l

theorem mem_candidates (convert : peer.ID → Nat) (c : client) (streams : List peer.ID)
    (b : Bucket) (p : peer.ID) :
    p ∈ candidates convert c streams b ↔ p ∈ b.Peers ∧ p ∉ streams := by
  unfold candidates
  rw [(sortClosestPeers_perm convert _ _).mem_iff, mem_difference]

theorem length_candidates (convert : peer.ID → Nat) (c : client) (streams : List peer.ID)
    (b : Bucket) :
    (candidates convert c streams b).length = (difference b.Peers streams).length := by
  unfold candidates
  exact (sortClosestPeers_perm convert _ _).length_eq

/-- The count `s` of the pass is the number of outbound peers that occur in the
bucket. -/
theorem alreadyFromBucket_eq_countP (streams : List peer.ID) (b : Bucket) :
    alreadyFromBucket streams b = ((streams.countP (fun p => decide (p ∈ b.Peers)) : Nat) : Int) := by
  unfold alreadyFromBucket
  rw [difference_eq, ← List.countP_eq_length_filter]
  have h := List.length_eq_countP_add_countP (fun p => decide (p ∈ b.Peers)) streams
  have h2 : List.countP (fun a => decide ¬(decide (a ∈ b.Peers)) = true) streams =
      List.countP (fun e => decide (e ∉ b.Peers)) streams := by
    apply List.countP_congr
    intro x _
    simp
  rw [h2] at h
  omega

theorem bucketLoop_nil (convert : peer.ID → Nat) (c : client) (rand : Nat → Int)
    (streams : List peer.ID) (targets : List Int) (i draws : Nat) :
    bucketLoop convert c rand streams targets i [] draws =
      { runs := [], draws := draws, status := .done } := by
  simp [bucketLoop]

theorem bucketLoop_none (convert : peer.ID → Nat) (c : client) (rand : Nat → Int)
    (streams : List peer.ID) (targets : List Int) (i draws : Nat) (b : Bucket)
    (rest : List Bucket) (h : targets[i]? = none) :
    bucketLoop convert c rand streams targets i (b :: rest) draws =
      { runs := [], draws := draws, status := .panicked } := by
  simp [bucketLoop, h]

theorem bucketLoop_done (convert : peer.ID → Nat) (c : client) (rand : Nat → Int)
    (streams : List peer.ID) (targets : List Int) (i draws : Nat) (b : Bucket)
    (rest : List Bucket) (t : Int) (h : targets[i]? = some t)
    (hd : (selectFrom convert c rand streams b t draws).2 = .done) :
    bucketLoop convert c rand streams targets i (b :: rest) draws =
      { runs :=
          { paired := (selectFrom convert c rand streams b t draws).1.paired,
            draws := (selectFrom convert c rand streams b t draws).1.draws - draws } ::
          (bucketLoop convert c rand streams targets (i + 1) rest
            (selectFrom convert c rand streams b t draws).1.draws).runs,
        draws := (bucketLoop convert c rand streams targets (i + 1) rest
            (selectFrom convert c rand streams b t draws).1.draws).draws,
        status := (bucketLoop convert c rand streams targets (i + 1) rest
            (selectFrom convert c rand streams b t draws).1.draws).status } := by
  simp [bucketLoop, h, hd]

theorem bucketLoop_stop (convert : peer.ID → Nat) (c : client) (rand : Nat → Int)
    (streams : List peer.ID) (targets : List Int) (i draws : Nat) (b : Bucket)
    (rest : List Bucket) (t : Int) (h : targets[i]? = some t)
    (hd : (selectFrom convert c rand streams b t draws).2 ≠ .done) :
    bucketLoop convert c rand streams targets i (b :: rest) draws =
      { runs :=
          [{ paired := (selectFrom convert c rand streams b t draws).1.paired,
             draws := (selectFrom convert c rand streams b t draws).1.draws - draws }],
        draws := (selectFrom convert c rand streams b t draws).1.draws,
        status := (selectFrom convert c rand streams b t draws).2 } := by
  cases hs : (selectFrom convert c rand streams b t draws).2 with
  | done => exact absurd hs hd
  | panicked => simp [bucketLoop, h, hs]
  | outOfFuel => simp [bucketLoop, h, hs]

/-- What the selection loop of a bucket guarantees, in terms of the bucket. -/
theorem selectFrom_inv (convert : peer.ID → Nat) (c : client) (rand : Nat → Int)
    (streams : List peer.ID) (b : Bucket) (t : Int) (draws : Nat) :
    (((selectFrom convert c rand streams b t draws).1.paired.length : Nat) : Int) ≤
        max 0 (t - alreadyFromBucket streams b) ∧
    (selectFrom convert c rand streams b t draws).1.paired.length ≤
        (selectFrom convert c rand streams b t draws).1.draws - draws ∧
    (selectFrom convert c rand streams b t draws).1.draws - draws ≤
        (candidates convert c streams b).length ∧
    draws ≤ (selectFrom convert c rand streams b t draws).1.draws ∧
    (∀ p ∈ (selectFrom convert c rand streams b t draws).1.paired,
        p ∈ b.Peers ∧ p ∉ streams ∧ p ≠ c.id ∧ c.peerstore.addrs p ≠ []) ∧
    (selectFrom convert c rand streams b t draws).2 ≠ .outOfFuel := by
  obtain ⟨new, e1, e2, e3, e4, e5, e6⟩ :=
    selectLoop_inv c rand (alreadyFromBucket streams b) (candidates convert c streams b).length
      { delta := candidates convert c streams b, t := t, paired := [], draws := draws }
  simp only [List.nil_append] at e1 e2 e3 e4 e5 e6
  unfold selectFrom
  rw [e1]
  refine ⟨e2, by omega, by omega, by omega, ?_, e6 (le_refl _)⟩
  intro p hp
  obtain ⟨h1, h2, h3⟩ := e5 p hp
  exact ⟨((mem_candidates convert c streams b p).1 h1).1,
    ((mem_candidates convert c streams b p).1 h1).2, h2, h3⟩

/-- Every run of the pass belongs to the bucket of the same position, whose
target is in range, and obeys the guarantees of the selection loop; the pass
never runs out of fuel, and it enters every bucket unless it panics. -/
theorem bucketLoop_runs (convert : peer.ID → Nat) (c : client) (rand : Nat → Int)
    (streams : List peer.ID) (targets : List Int) :
    ∀ (bs : List Bucket) (i draws : Nat),
      (bucketLoop convert c rand streams targets i bs draws).status ≠ .outOfFuel ∧
      ((bucketLoop convert c rand streams targets i bs draws).status = .done →
        (bucketLoop convert c rand streams targets i bs draws).runs.length = bs.length) ∧
      ∀ (k : Nat) (run : BucketRun),
        (bucketLoop convert c rand streams targets i bs draws).runs[k]? = some run →
        ∃ b t, bs[k]? = some b ∧ targets[i + k]? = some t ∧
          ((run.paired.length : Nat) : Int) ≤ max 0 (t - alreadyFromBucket streams b) ∧
          run.paired.length ≤ run.draws ∧
          run.draws ≤ (candidates convert c streams b).length ∧
          (∀ p ∈ run.paired,
            p ∈ b.Peers ∧ p ∉ streams ∧ p ≠ c.id ∧ c.peerstore.addrs p ≠ []) := by
  intro bs
  induction bs with
  | nil =>
    intro i draws
    rw [bucketLoop_nil]
    simp
  | cons b rest ih =>
    intro i draws
    cases ht : targets[i]? with
    | none =>
      rw [bucketLoop_none convert c rand streams targets i draws b rest ht]
      simp
    | some t =>
      obtain ⟨s1, s2, s3, s4, s5, s6⟩ := selectFrom_inv convert c rand streams b t draws
      by_cases hd : (selectFrom convert c rand streams b t draws).2 = .done
      · rw [bucketLoop_done convert c rand streams targets i draws b rest t ht hd]
        obtain ⟨i1, i2, i3⟩ := ih (i + 1) (selectFrom convert c rand streams b t draws).1.draws
        refine ⟨i1, ?_, ?_⟩
        · intro hst
          simp only [List.length_cons]
          rw [i2 hst]
        · intro k run hk
          cases k with
          | zero =>
            simp only [List.getElem?_cons_zero, Option.some.injEq] at hk
            subst hk
            exact ⟨b, t, by simp, by simpa using ht, s1, s2, s3, s5⟩
          | succ k =>
            simp only [List.getElem?_cons_succ] at hk
            obtain ⟨b1, t1, h1, h2, h3⟩ := i3 k run hk
            refine ⟨b1, t1, by simpa using h1, ?_, h3⟩
            have : i + (k + 1) = i + 1 + k := by omega
            rw [this]
            exact h2
      · rw [bucketLoop_stop convert c rand streams targets i draws b rest t ht hd]
        refine ⟨s6, ?_, ?_⟩
        · intro hst
          exact absurd hst hd
        · intro k run hk
          cases k with
          | zero =>
            simp only [List.getElem?_cons_zero, Option.some.injEq] at hk
            subst hk
            exact ⟨b, t, by simp, by simpa using ht, s1, s2, s3, s5⟩
          | succ k =>
            simp at hk

/-- The attempts of the pass, summed over the buckets, stay within the sum of
the rooms the buckets have below their targets. -/
theorem bucketLoop_attempts_le (convert : peer.ID → Nat) (c : client) (rand : Nat → Int)
    (streams : List peer.ID) (targets : List Int) :
    ∀ (bs : List Bucket) (i draws : Nat),
      (((bucketLoop convert c rand streams targets i bs draws).attempts : Nat) : Int) ≤
        quotaSum streams bs (targets.drop i) := by
  intro bs
  induction bs with
  | nil =>
    intro i draws
    rw [bucketLoop_nil]
    simp [Pass.attempts, quotaSum]
  | cons b rest ih =>
    intro i draws
    cases ht : targets[i]? with
    | none =>
      rw [bucketLoop_none convert c rand streams targets i draws b rest ht]
      have hdrop : targets.drop i = [] := by
        apply List.drop_eq_nil_of_le
        exact List.getElem?_eq_none_iff.1 ht
      simp [Pass.attempts, quotaSum, hdrop]
    | some t =>
      obtain ⟨hlt, hget⟩ := List.getElem?_eq_some.1 ht
      have hdrop : targets.drop i = t :: targets.drop (i + 1) := by
        rw [List.drop_eq_getElem_cons hlt, hget]
      have hq : quotaSum streams (b :: rest) (targets.drop i) =
          max 0 (t - alreadyFromBucket streams b) +
            quotaSum streams rest (targets.drop (i + 1)) := by
        rw [hdrop]
        simp [quotaSum]
      have hq0 : 0 ≤ quotaSum streams rest (targets.drop (i + 1)) := by
        unfold quotaSum
        apply List.sum_nonneg
        intro x hx
        simp only [List.mem_map] at hx
        obtain ⟨bt, _, rfl⟩ := hx
        exact le_max_left _ _
      obtain ⟨s1, _, _, _, _, _⟩ := selectFrom_inv convert c rand streams b t draws
      rw [hq]
      by_cases hd : (selectFrom convert c rand streams b t draws).2 = .done
      · rw [bucketLoop_done convert c rand streams targets i draws b rest t ht hd]
        have := ih (i + 1) (selectFrom convert c rand streams b t draws).1.draws
        simp only [Pass.attempts, List.map_cons, List.sum_cons] at this ⊢
        omega
      · rw [bucketLoop_stop convert c rand streams targets i draws b rest t ht hd]
        simp only [Pass.attempts, List.map_cons, List.sum_cons, List.map_nil, List.sum_nil]
        omega

/-! ## Counting the outbound peers bucket by bucket -/

theorem alreadyFromBucket_nonneg (streams : List peer.ID) (b : Bucket) :
    0 ≤ alreadyFromBucket streams b := by
  rw [alreadyFromBucket_eq_countP]
  exact Int.natCast_nonneg _

theorem quotaSum_cons (streams : List peer.ID) (b : Bucket) (bs : List Bucket) (t : Int)
    (ts : List Int) :
    quotaSum streams (b :: bs) (t :: ts) =
      max 0 (t - alreadyFromBucket streams b) + quotaSum streams bs ts := by
  simp [quotaSum]

/-- With non-negative targets the rooms of the buckets sum to at most the sum
of the targets. -/
theorem quotaSum_le_sum (streams : List peer.ID) :
    ∀ (bs : List Bucket) (ts : List Int), (∀ t ∈ ts, 0 ≤ t) → quotaSum streams bs ts ≤ ts.sum := by
  intro bs
  induction bs with
  | nil =>
    intro ts hts
    simp only [quotaSum, List.zip_nil_left, List.map_nil, List.sum_nil]
    exact List.sum_nonneg hts
  | cons b rest ih =>
    intro ts hts
    cases ts with
    | nil => simp [quotaSum]
    | cons t ts =>
      rw [quotaSum_cons, List.sum_cons]
      have h1 := ih ts (fun x hx => hts x (List.mem_cons_of_mem _ hx))
      have h2 := hts t (List.mem_cons_self _ _)
      have h3 := alreadyFromBucket_nonneg streams b
      have h4 : max 0 (t - alreadyFromBucket streams b) ≤ t := by
        apply max_le h2
        omega
      omega

/-- When no bucket holds more outbound peers than its target, the rooms of the
buckets sum to the targets minus the outbound peers counted bucket by bucket. -/
theorem quotaSum_eq_sub (streams : List peer.ID) :
    ∀ (bs : List Bucket) (ts : List Int), bs.length = ts.length →
      (∀ bt ∈ bs.zip ts, alreadyFromBucket streams bt.1 ≤ bt.2) →
      quotaSum streams bs ts = ts.sum - (bs.map (alreadyFromBucket streams)).sum := by
  intro bs
  induction bs with
  | nil =>
    intro ts hlen _
    cases ts with
    | nil => simp [quotaSum]
    | cons t ts => simp at hlen
  | cons b rest ih =>
    intro ts hlen hle
    cases ts with
    | nil => simp at hlen
    | cons t ts =>
      rw [quotaSum_cons, List.sum_cons, List.map_cons, List.sum_cons]
      have h1 := ih ts (by simpa using hlen)
        (fun bt hbt => hle bt (by simp only [List.zip_cons_cons]; exact List.mem_cons_of_mem _ hbt))
      have h2 : alreadyFromBucket streams b ≤ t :=
        hle (b, t) (by simp only [List.zip_cons_cons]; exact List.mem_cons_self _ _)
      have h3 : max 0 (t - alreadyFromBucket streams b) = t - alreadyFromBucket streams b := by
        apply max_eq_right
        omega
      omega

theorem countP_or_le (p q : peer.ID → Bool) (l : List peer.ID) :
    l.countP (fun x => p x || q x) ≤ l.countP p + l.countP q := by
  induction l with
  | nil => simp
  | cons x xs ih =>
    simp only [List.countP_cons]
    cases hp : p x <;> cases hq : q x <;> simp <;> omega

/-- The outbound peers that occur in some bucket are at most as many as the
bucket-by-bucket counts together. -/
theorem countP_any_le_sum (streams : List peer.ID) :
    ∀ bs : List Bucket,
      ((streams.countP (fun p => bs.any (fun b => decide (p ∈ b.Peers))) : Nat) : Int) ≤
        (bs.map (alreadyFromBucket streams)).sum := by
  intro bs
  induction bs with
  | nil => simp
  | cons b rest ih =>
    rw [List.map_cons, List.sum_cons, alreadyFromBucket_eq_countP]
    have h := countP_or_le (fun p => decide (p ∈ b.Peers))
      (fun p => rest.any (fun b => decide (p ∈ b.Peers))) streams
    simp only [List.any_cons]
    omega

theorem length_le_sum_alreadyFromBucket (streams : List peer.ID) (bs : List Bucket)
    (h : ∀ p ∈ streams, ∃ b ∈ bs, p ∈ b.Peers) :
    (streams.length : Int) ≤ (bs.map (alreadyFromBucket streams)).sum := by
  have h1 := countP_any_le_sum streams bs
  have h2 : streams.countP (fun p => bs.any (fun b => decide (p ∈ b.Peers))) = streams.length := by
    rw [List.countP_eq_length]
    intro p hp
    obtain ⟨b, hb, hpb⟩ := h p hp
    simp only [List.any_eq_true, decide_eq_true_eq]
    exact ⟨b, hb, hpb⟩
  rw [h2] at h1
  exact h1

/-! ## Properties of replenishStreamstore -/

/-- C4 as stated fails.  With capacity 2, one bucket `[A, B]` and the outbound
peer `C` outside the routing table, the pass makes 2 connection attempts, more
than the capacity minus the 1 outbound peer.  With capacity 4, buckets
`[A, B, C]` and `[D, E, self, F]` and the outbound peers `A`, `B`, `C`, all in
the first bucket, the pass makes 2 attempts, more than 4 minus 3.  In both
states the outbound size is below the capacity, the condition under which
`discoverStreams` starts a pass. -/
theorem replenish_attempts_exceed_room :
    ((demoClient.replenishStreamstore String.length (fun _ => 0)).runs =
        [{ paired := ["A", "B"], draws := 2 }] ∧
      ¬ (((demoClient.replenishStreamstore String.length (fun _ => 0)).attempts : Int) ≤
          demoClient.streamstore.OutboundCapacity -
            (demoClient.streamstore.OutboundPeers.length : Int))) ∧
    ((demoClient3.replenishStreamstore String.length (fun _ => 0)).runs =
        [{ paired := [], draws := 0 }, { paired := ["E", "F"], draws := 4 }] ∧
      ¬ (((demoClient3.replenishStreamstore String.length (fun _ => 0)).attempts : Int) ≤
          demoClient3.streamstore.OutboundCapacity -
            (demoClient3.streamstore.OutboundPeers.length : Int))) := by
  decide

/-- C4, amended. The connection attempts of one pass are at most the sum over
the buckets of `max 0 (targets[i] - alreadyFromBucket i)`, hence at most the
outbound capacity when it is non-negative; they are at most the capacity minus
the number of outbound peers when, moreover, every outbound peer read at the
start of the pass occurs in some bucket and no bucket holds more outbound peers
than its target. -/
theorem replenish_attempts_bounded (convert : peer.ID → Nat) (c : client) (rand : Nat → Int) :
    (((c.replenishStreamstore convert rand).attempts : Nat) : Int) ≤
        quotaSum c.streamstore.OutboundPeers c.table.Buckets
          (deal c.streamstore.OutboundCapacity c.table.Buckets.length) ∧
    (0 ≤ c.streamstore.OutboundCapacity →
      (((c.replenishStreamstore convert rand).attempts : Nat) : Int) ≤
        c.streamstore.OutboundCapacity) ∧
    (0 ≤ c.streamstore.OutboundCapacity →
      (∀ p ∈ c.streamstore.OutboundPeers, ∃ b ∈ c.table.Buckets, p ∈ b.Peers) →
      (∀ bt ∈ c.table.Buckets.zip (deal c.streamstore.OutboundCapacity c.table.Buckets.length),
        alreadyFromBucket c.streamstore.OutboundPeers bt.1 ≤ bt.2) →
      (((c.replenishStreamstore convert rand).attempts : Nat) : Int) ≤
        c.streamstore.OutboundCapacity - (c.streamstore.OutboundPeers.length : Int)) := by
  have hmain := bucketLoop_attempts_le convert c rand c.streamstore.OutboundPeers
    (deal c.streamstore.OutboundCapacity c.table.Buckets.length) c.table.Buckets 0 0
  rw [List.drop_zero] at hmain
  have hrun : c.replenishStreamstore convert rand =
      bucketLoop convert c rand c.streamstore.OutboundPeers
        (deal c.streamstore.OutboundCapacity c.table.Buckets.length) 0 c.table.Buckets 0 := rfl
  rw [hrun]
  refine ⟨hmain, ?_, ?_⟩
  · intro hcap
    have h1 := quotaSum_le_sum c.streamstore.OutboundPeers c.table.Buckets
      (deal c.streamstore.OutboundCapacity c.table.Buckets.length)
      (deal_nonneg _ _ hcap)
    have h2 := deal_sum_le c.streamstore.OutboundCapacity c.table.Buckets.length hcap
    omega
  · intro hcap hin hle
    have hlen : c.table.Buckets.length =
        (deal c.streamstore.OutboundCapacity c.table.Buckets.length).length := by
      rw [deal_length]
      simp
    have h1 := quotaSum_eq_sub c.streamstore.OutboundPeers c.table.Buckets
      (deal c.streamstore.OutboundCapacity c.table.Buckets.length) hlen hle
    have h2 := deal_sum_le c.streamstore.OutboundCapacity c.table.Buckets.length hcap
    have h3 := length_le_sum_alreadyFromBucket c.streamstore.OutboundPeers c.table.Buckets hin
    omega

/-- Witness of C4, amended: capacity 4, buckets `[A, B, C]` and
`[D, E, self, F]`, outbound peers `A` and `E`. -/
theorem replenish_attempts_bounded_witness :
    (((demoClient2.replenishStreamstore String.length (fun _ => 0)).attempts : Nat) : Int) ≤
      4 - 2 :=
  (replenish_attempts_bounded String.length demoClient2 (fun _ => 0)).2.2
    (by decide) (by decide) (by decide)

/-- C9. In one pass, every peer handed to `client.pair` for bucket `i` is a
peer of that bucket, is not in the outbound peer set read at the start of the
pass, is not the local identifier and has a known address; and an iteration
that draws the local identifier or a peer without address removes it from
`delta` and changes neither the peers paired nor the remaining target. -/
theorem replenish_pairs_valid_candidates (convert : peer.ID → Nat) (c : client)
    (rand : Nat → Int) :
    (∀ (i : Nat) (run : BucketRun) (b : Bucket),
      (c.replenishStreamstore convert rand).runs[i]? = some run →
      c.table.Buckets[i]? = some b →
      ∀ p ∈ run.paired,
        p ∈ b.Peers ∧ p ∉ c.streamstore.OutboundPeers ∧ p ≠ c.id ∧ c.peerstore.addrs p ≠ []) ∧
    (∀ (st : Selection) (j : Int) (p : peer.ID),
      0 ≤ j → st.delta[j.toNat]? = some p → (p = c.id ∨ c.peerstore.addrs p = []) →
      selectStep c st j =
        some { st with delta := st.delta.eraseIdx j.toNat, draws := st.draws + 1 }) := by
  constructor
  · intro i run b hrun hb p hp
    have hpass : c.replenishStreamstore convert rand =
        bucketLoop convert c rand c.streamstore.OutboundPeers
          (deal c.streamstore.OutboundCapacity c.table.Buckets.length) 0 c.table.Buckets 0 := rfl
    rw [hpass] at hrun
    obtain ⟨_, _, h3⟩ := bucketLoop_runs convert c rand c.streamstore.OutboundPeers
      (deal c.streamstore.OutboundCapacity c.table.Buckets.length) c.table.Buckets 0 0
    obtain ⟨b1, t, hb1, _, _, _, _, hvalid⟩ := h3 i run hrun
    rw [hb] at hb1
    cases hb1
    exact hvalid p hp
  · intro st j p hj hp hbad
    have hj0 : ¬ j < 0 := by omega
    unfold selectStep
    simp only [hj0, if_false, hp, List.eraseIdx_eq_take_drop_succ]
    rcases hbad with h | h <;> simp [Peerstore.PeerInfo, h]

/-- Witness of C9: the second bucket of `demoClient2`, where the first draws are
the local identifier and the peer `D` without address. -/
theorem replenish_pairs_valid_candidates_witness :
    (∀ p ∈ ["F"], p ∈ ["D", "E", "self", "F"] ∧
      p ∉ demoClient2.streamstore.OutboundPeers ∧ p ≠ demoClient2.id ∧
      demoClient2.peerstore.addrs p ≠ []) ∧
    selectStep demoClient2 { delta := ["self", "D", "F"], t := 2, paired := [], draws := 1 } 0 =
      some { delta := ["D", "F"], t := 2, paired := [], draws := 2 } :=
  ⟨(replenish_pairs_valid_candidates String.length demoClient2 (fun _ => 0)).1 1
      { paired := ["F"], draws := 3 } { list := ["D", "E", "self", "F"] }
      (by decide) (by decide),
   (replenish_pairs_valid_candidates String.length demoClient2 (fun _ => 0)).2
      { delta := ["self", "D", "F"], t := 2, paired := [], draws := 1 } 0 "self"
      (by decide) (by decide) (by decide)⟩

/-- C10. For every bucket `i` the pass enters, with `t = targets[i]` (always
in range) and `alreadyFromBucket` the number of outbound peers that occur in
the bucket, the attempts made for the bucket are at most
`max 0 (t - alreadyFromBucket)` and at most the number of candidates, and so
are the draws; every draw removes exactly one candidate, so that the selection
loop ends within `len(delta)` iterations and the pass never runs out of
fuel. -/
theorem bucket_attempts_within_quota (convert : peer.ID → Nat) (c : client)
    (rand : Nat → Int) :
    (c.replenishStreamstore convert rand).status ≠ .outOfFuel ∧
    (∀ (i : Nat) (run : BucketRun),
      (c.replenishStreamstore convert rand).runs[i]? = some run →
      ∃ b t, c.table.Buckets[i]? = some b ∧
        (deal c.streamstore.OutboundCapacity c.table.Buckets.length)[i]? = some t ∧
        alreadyFromBucket c.streamstore.OutboundPeers b =
          ((c.streamstore.OutboundPeers.countP (fun p => decide (p ∈ b.Peers)) : Nat) : Int) ∧
        ((run.paired.length : Nat) : Int) ≤
          max 0 (t - alreadyFromBucket c.streamstore.OutboundPeers b) ∧
        run.paired.length ≤ (candidates convert c c.streamstore.OutboundPeers b).length ∧
        run.draws ≤ (candidates convert c c.streamstore.OutboundPeers b).length) ∧
    (∀ (st st1 : Selection) (j : Int),
      selectStep c st j = some st1 → st1.delta.length + 1 = st.delta.length) ∧
    (∀ (s : Int) (fuel : Nat) (st : Selection), st.delta.length ≤ fuel →
      selectLoop c rand s fuel st = selectLoop c rand s st.delta.length st ∧
      (selectLoop c rand s fuel st).2 ≠ .outOfFuel ∧
      (selectLoop c rand s fuel st).1.draws ≤ st.draws + st.delta.length) := by
  have hpass : c.replenishStreamstore convert rand =
      bucketLoop convert c rand c.streamstore.OutboundPeers
        (deal c.streamstore.OutboundCapacity c.table.Buckets.length) 0 c.table.Buckets 0 := rfl
  obtain ⟨h1, _, h3⟩ := bucketLoop_runs convert c rand c.streamstore.OutboundPeers
    (deal c.streamstore.OutboundCapacity c.table.Buckets.length) c.table.Buckets 0 0
  rw [hpass]
  refine ⟨h1, ?_, ?_, ?_⟩
  · intro i run hrun
    obtain ⟨b, t, hb, ht, e1, e2, e3, _⟩ := h3 i run hrun
    rw [Nat.zero_add] at ht
    exact ⟨b, t, hb, ht, alreadyFromBucket_eq_countP _ b, e1, by omega, e3⟩
  · intro st st1 j h
    exact selectStep_length c st st1 j h
  · intro s fuel st hfuel
    obtain ⟨new, _, _, _, e4, _, e6⟩ := selectLoop_inv c rand s fuel st
    exact ⟨selectLoop_fuel c rand s fuel st hfuel, e6 hfuel, by omega⟩

/-- Witness of C10: the second bucket of `demoClient2`, with target 2, one
outbound peer in the bucket, three candidates and one attempt. -/
theorem bucket_attempts_within_quota_witness :
    ∃ b t, demoClient2.table.Buckets[1]? = some b ∧
      (deal demoClient2.streamstore.OutboundCapacity demoClient2.table.Buckets.length)[1]? =
        some t ∧
      alreadyFromBucket demoClient2.streamstore.OutboundPeers b =
        ((demoClient2.streamstore.OutboundPeers.countP (fun p => decide (p ∈ b.Peers)) : Nat) :
          Int) ∧
      (((["F"] : List peer.ID).length : Nat) : Int) ≤
        max 0 (t - alreadyFromBucket demoClient2.streamstore.OutboundPeers b) ∧
      (["F"] : List peer.ID).length ≤
        (candidates String.length demoClient2 demoClient2.streamstore.OutboundPeers b).length ∧
      3 ≤ (candidates String.length demoClient2 demoClient2.streamstore.OutboundPeers b).length :=
  (bucket_attempts_within_quota String.length demoClient2 (fun _ => 0)).2.1 1
    { paired := ["F"], draws := 3 } (by decide)

/-! ## Witnesses for ping and pingHandler -/

/-- Witness of C6: a ping of `A` whose stream cannot be opened. -/
theorem ping_open_failure_witness :
    (demoClient.ping "A"
        { newStream := some "dial backoff", random := [], randomErr := none, write := none,
          read := [], readErr := none, since := 0, now := 0 }).state.peerstore.addrs "A" = [] ∧
    (demoClient.ping "A"
        { newStream := some "dial backoff", random := [], randomErr := none, write := none,
          read := [], readErr := none, since := 0, now := 0 }).err = some "dial backoff" :=
  ⟨(ping_open_failure demoClient "A"
      { newStream := some "dial backoff", random := [], randomErr := none, write := none,
        read := [], readErr := none, since := 0, now := 0 } "dial backoff" rfl).2.2.1,
   (ping_open_failure demoClient "A"
      { newStream := some "dial backoff", random := [], randomErr := none, write := none,
        read := [], readErr := none, since := 0, now := 0 } "dial backoff" rfl).2.2.2.2⟩

/-- Witness of C7: a ping of `A` whose echo differs from the payload sent. -/
theorem ping_failure_after_open_witness :
    (demoClient.ping "A"
        { newStream := none, random := [1, 2, 3], randomErr := none, write := none,
          read := [9], readErr := none, since := 4, now := 7 }).err ≠ none ∧
    (demoClient.ping "A"
        { newStream := none, random := [1, 2, 3], randomErr := none, write := none,
          read := [9], readErr := none, since := 4, now := 7 }).state = demoClient :=
  (ping_failure_after_open demoClient "A"
      { newStream := none, random := [1, 2, 3], randomErr := none, write := none,
        read := [9], readErr := none, since := 4, now := 7 } rfl).2
    (Or.inr (Or.inr (Or.inr (by decide))))

/-- Witness of C8: a ping from `B`, which has no `AUTHORIZED` attribute, and one
from `A`, which is authorized. -/
theorem pingHandler_authorization_witness :
    demoClient.pingHandler "B" { read := [1, 2], readErr := none, write := none } =
      { ops := [.close], panicked := false } ∧
    demoClient.pingHandler "A" { read := [1, 2], readErr := none, write := none } =
      { ops := [.read 32 5, .write [1, 2] 5, .close], panicked := false } :=
  ⟨(pingHandler_authorization demoClient "B"
      { read := [1, 2], readErr := none, write := none }).1
      (Or.inl ⟨"item not found", rfl⟩),
   (pingHandler_authorization demoClient "A"
      { read := [1, 2], readErr := none, write := none }).2 rfl rfl⟩

end p2p
